import Mathlib

/-!
# NAT traversal: wire framing, coordination topic registry, client peer registry

A shallow embedding of the Go sources `client/client.go`, `client/peers.go` and
`coord/coord.go`, followed by theorems about it.

Conventions of the embedding

* a Go `[]byte` is a `List Byte`; a result that may be the `nil` slice is an `Option`;
* a run-time panic of the Go program is the constructor `Go.panic`;
* `time.Now()` and the bytes produced by `rand.Read` are inputs of the functions that use them;
* a Go map is an association list with distinct keys (`AList`); the order in which a `range`
  loop visits the entries of a map is unspecified in Go and is an input (`RangeOrder`) of every
  function that has such a loop;
* the mutexes are not modelled: every method below runs wholly inside its critical section.
-/

namespace NatTraversal

/-! ## Go run-time outcomes -/

/-- Outcome of running a piece of Go code: it returns a value or panics. -/
inductive Go (α : Type) where
  | ret (a : α)
  | panic
  deriving DecidableEq, Repr

/-! ## Wire framer (`client/client.go`) -/

/-- One octet. -/
abbrev Byte := Fin 256

/-- The constant `magicData`, ASCII "DATADATA". -/
def magicData : Nat := 0x4441544144415441

/-- The constant `magicPing`, ASCII "PINGPING". -/
def magicPing : Nat := 0x50494e4750494e47

/-- The eight octets of a 64-bit value, most significant first. -/
def bigEndianBytes (v : Nat) : List Byte :=
  (List.range 8).map (fun i => Fin.ofNat (v / 2 ^ (8 * (7 - i))))

/-- Model of `binary.BigEndian.PutUint64(b[:8], v)`: the first eight octets of `b` are
overwritten. The call sites only pass slices of length at least 128. -/
def putUint64 (b : List Byte) (v : Nat) : List Byte :=
  bigEndianBytes v ++ b.drop 8

/-- Model of `binary.BigEndian.Uint64(b)` for a slice `b` of eight octets. -/
def uint64 (b : List Byte) : Nat :=
  b.foldl (fun acc x => acc * 256 + x.val) 0

/-- Model of `rand.Read(b[:n])`: the first `n` octets of `b` are replaced by the octets
`rnd 0, ..., rnd (n-1)` drawn from the random source. -/
def randRead (rnd : Nat → Byte) (n : Nat) (b : List Byte) : List Byte :=
  (List.range n).map rnd ++ b.drop n

/-- Model of `copy(dst[off:], src)`: as many octets as fit are copied. -/
def copyAt (off : Nat) (dst src : List Byte) : List Byte :=
  let n := min src.length (dst.length - off)
  dst.take off ++ src.take n ++ dst.drop (off + n)

/-- Model of `makeDataMessage`. -/
def makeDataMessage (rnd : Nat → Byte) (data : List Byte) : List Byte :=
  let b := List.replicate (data.length + 128) (0 : Byte)
  let b := randRead rnd 128 b
  let b := copyAt 128 b data
  putUint64 b magicData

/-- Model of `makePingMessage`. -/
def makePingMessage (rnd : Nat → Byte) : List Byte :=
  let b := List.replicate 128 (0 : Byte)
  let b := randRead rnd 128 b
  putUint64 b magicPing

/-- The two errors `parseMessage` builds with `fmt.Errorf`. -/
inductive ParseError where
  | messageTooSmall
  | unknownMagic (magic : Nat)
  deriving DecidableEq, Repr

/-- The three results of `parseMessage`: payload (`none` is `nil`), magic, error
(`none` is `nil`). -/
structure Parsed where
  data : Option (List Byte)
  magic : Nat
  err : Option ParseError
  deriving DecidableEq, Repr

/-- Model of `parseMessage`. The slice expression `msg[128:]` panics when
`len(msg) < 128`. -/
def parseMessage (msg : List Byte) : Go Parsed :=
  if msg.length < 8 then
    .ret ⟨none, 0, some .messageTooSmall⟩
  else
    let magic := uint64 (msg.take 8)
    if magic = magicData then
      if 128 ≤ msg.length then .ret ⟨some (msg.drop 128), magic, none⟩ else .panic
    else if magic = magicPing then
      .ret ⟨none, magic, none⟩
    else
      .ret ⟨none, 0, some (.unknownMagic magic)⟩

/-! ## Go maps and `range` -/

/-- The order in which one `range` loop over a map visits the entries. Go leaves it
unspecified (it may differ from one loop to the next), so every loop takes its own. -/
structure RangeOrder (α : Type) where
  visit : List α → List α
  perm : ∀ l, (visit l).Perm l

/-- The loop visits the entries in the order of the association list. -/
def RangeOrder.asStored (α : Type) : RangeOrder α := ⟨id, fun l => List.Perm.refl l⟩

/-- The loop visits the entries in the reverse order of the association list. -/
def RangeOrder.reversed (α : Type) : RangeOrder α := ⟨List.reverse, fun l => List.reverse_perm l⟩

/-! ## Coordination topic registry (`coord/coord.go`) -/

/-- A `time.Time`, as an instant on a discrete clock. -/
abbrev Time := Nat

/-- The struct `Peer`. `Port` is a `uint16`. -/
structure Peer where
  Name : String
  IP : List Byte
  Port : Nat
  LastSeen : Time
  deriving DecidableEq, Repr

/-- A `chan struct{}` made with capacity 1: the number of buffered wakes and whether the
channel has been closed. -/
structure Chan where
  len : Nat
  closed : Bool
  deriving DecidableEq, Repr

/-- Model of `make(chan struct{}, 1)`. -/
def Chan.make : Chan := ⟨0, false⟩

/-- Capacity of every notification channel. -/
def Chan.cap : Nat := 1

/-- Model of `select { case ch <- struct{}{}: default: }`: the wake is buffered when there is
room and dropped otherwise; a send on a closed channel panics. -/
def Chan.trySend (ch : Chan) : Go Chan :=
  if ch.closed then .panic
  else if ch.len < Chan.cap then .ret { ch with len := ch.len + 1 }
  else .ret ch

/-- The channel after a non-blocking wake that did not panic. -/
def Chan.wake (ch : Chan) : Chan :=
  if ch.len < Chan.cap then { ch with len := ch.len + 1 } else ch

/-- Model of `close(ch)` on a non-nil channel: closing a closed channel panics. -/
def Chan.close (ch : Chan) : Go Chan :=
  if ch.closed then .panic else .ret { ch with closed := true }

/-- Model of one `<-ch` of the push loop on an open channel: a buffered wake is taken when
there is one (`some`), otherwise the receiver blocks (`none`). -/
def Chan.recv (ch : Chan) : Option Chan :=
  if 0 < ch.len then some { ch with len := ch.len - 1 } else none

/-- The struct `topic`. A `*Peer` held by the map is owned by its map entry alone, so the map
holds the record itself; a channel is held by value under its name, and that name is the
handle `tryRegister` gives back. The `nil` map and the empty map are not told apart (every
write goes through `peerMap()` / `notificationMap()`, which allocate on demand). `peerList`
is `none` for the `nil` slice. -/
structure topic where
  peers : AList (fun _ : String => Peer)
  notifications : AList (fun _ : String => Chan)
  peerList : Option (List Peer)

/-- The zero value `topic{}`. -/
def topic.zero : topic := ⟨∅, ∅, none⟩

/-- The body of the loop in `peersChanged`, for the entry `e` of the notification map: a
non-blocking send on its channel. A panic of an earlier iteration ends the loop. -/
def wakeStep (acc : Go topic) (e : Σ _ : String, Chan) : Go topic :=
  match acc with
  | .panic => .panic
  | .ret t' =>
    match e.2.trySend with
    | .panic => .panic
    | .ret ch' => .ret { t' with notifications := t'.notifications.insert e.1 ch' }

/-- Model of `topic.peersChanged`: the cached list is dropped and every channel of the
notification map gets a non-blocking wake. -/
def topic.peersChanged (ord : RangeOrder (Σ _ : String, Chan)) (t : topic) : Go topic :=
  (ord.visit t.notifications.entries).foldl wakeStep (.ret { t with peerList := none })

/-- Model of `topic.tryRegister`. The second component of the result is the returned channel,
given by the name under which the notification map holds it (`none` is `nil`). -/
def topic.tryRegister (ord : RangeOrder (Σ _ : String, Chan)) (t : topic)
    (name : String) (ip : List Byte) (port : Nat) (now : Time) :
    Go ((Bool × Option String) × topic) :=
  if name ∈ t.peers then
    .ret ((false, none), t)
  else
    let t := { t with peers := t.peers.insert name ⟨name, ip, port, now⟩ }
    let t := { t with notifications := t.notifications.insert name Chan.make }
    match t.peersChanged ord with
    | .panic => .panic
    | .ret t => .ret ((true, some name), t)

/-- Model of `topic.updateLastSeen`. -/
def topic.updateLastSeen (t : topic) (name : String) (now : Time) : topic :=
  match t.peers.lookup name with
  | some v => { t with peers := t.peers.insert name { v with LastSeen := now }, peerList := none }
  | none => t

/-- Model of `topic.unregister`. `close` panics on the `nil` channel that the map lookup gives
for a name it does not hold. -/
def topic.unregister (ord : RangeOrder (Σ _ : String, Chan)) (t : topic) (name : String) :
    Go topic :=
  match t.notifications.lookup name with
  | none => .panic
  | some ch =>
    match ch.close with
    | .panic => .panic
    | .ret _ =>
      let t := { t with notifications := t.notifications.erase name }
      let t := { t with peers := t.peers.erase name }
      t.peersChanged ord

/-- Model of `append(s, x)` on a slice that may be `nil`. -/
def sliceAppend {α : Type} (s : Option (List α)) (x : α) : Option (List α) :=
  some (s.getD [] ++ [x])

/-- Model of `topic.getPeerList`: the returned slice and the topic afterwards. -/
def topic.getPeerList (ord : RangeOrder (Σ _ : String, Peer)) (t : topic) :
    Option (List Peer) × topic :=
  match t.peerList with
  | some l => (some l, t)
  | none =>
    let s := (ord.visit t.peers.entries).foldl (fun s e => sliceAppend s e.2) none
    (s, { t with peerList := s })

/-- One call on a topic, with the inputs it consumes. -/
inductive TopicOp where
  | tryRegister (ord : RangeOrder (Σ _ : String, Chan)) (name : String) (ip : List Byte)
      (port : Nat) (now : Time)
  | updateLastSeen (name : String) (now : Time)
  | unregister (ord : RangeOrder (Σ _ : String, Chan)) (name : String)
  | getPeerList (ord : RangeOrder (Σ _ : String, Peer))

/-- The topic after one call. -/
def topic.step (t : topic) : TopicOp → Go topic
  | .tryRegister ord name ip port now =>
    match t.tryRegister ord name ip port now with
    | .panic => .panic
    | .ret r => .ret r.2
  | .updateLastSeen name now => .ret (t.updateLastSeen name now)
  | .unregister ord name => t.unregister ord name
  | .getPeerList ord => .ret (t.getPeerList ord).2

/-- The topic after a sequence of calls. -/
def topic.run (t : topic) : List TopicOp → Go topic
  | [] => .ret t
  | op :: ops =>
    match t.step op with
    | .panic => .panic
    | .ret t' => t'.run ops

/-- A membership change: a `tryRegister` that is accepted, or an `unregister` that returns.
`none` when the call is not one of these. -/
def topic.change (t : topic) : TopicOp → Option topic
  | .tryRegister ord name ip port now =>
    match t.tryRegister ord name ip port now with
    | .ret ((true, _), t') => some t'
    | _ => none
  | .unregister ord name =>
    match t.unregister ord name with
    | .ret t' => some t'
    | .panic => none
  | _ => none

/-- The topic after a sequence of membership changes with nothing in between. -/
def topic.changes (t : topic) : List TopicOp → Option topic
  | [] => some t
  | op :: ops =>
    match t.change op with
    | none => none
    | some t' => t'.changes ops

/-! ## Rendezvous handshake (`coord/coord.go`, the `/websocket` handler) -/

/-- The struct `state`: the topics by name. A `*topic` is given by the name of the topic. -/
structure state where
  topics : AList (fun _ : String => topic)

/-- Model of `state.topic`: the topic of that name, made on first use. -/
def state.topic (s : state) (name : String) : topic × state :=
  match s.topics.lookup name with
  | some t => (t, s)
  | none => (topic.zero, ⟨s.topics.insert name topic.zero⟩)

/-- Model of `strconv.ParseUint(s, 10, 16)`: a non-empty string of decimal digits whose value
fits in 16 bits; `none` is a non-nil error. -/
def parseUint16 (s : String) : Option Nat :=
  let cs := s.toList
  if cs = [] then none
  else if cs.all Char.isDigit then
    let n := cs.foldl (fun acc c => acc * 10 + (c.toNat - 48)) 0
    if n < 2 ^ 16 then some n else none
  else none

/-- What one run of the `/websocket` handler did up to and including its call of
`tryRegister`: the `http.Error` calls in order (status and text), the arguments of the
`tryRegister` call when it was made (topic, name, ip, port), whether the registration was
accepted (the handler then goes on to the upgrade and the session), and the server state. -/
structure HandlerRun where
  errors : List (Nat × String)
  registerCall : Option (String × String × List Byte × Nat)
  accepted : Bool
  s : state

/-- Model of the `/websocket` handler from its entry to the result of `tryRegister`.
`q` is `r.URL.Query().Get` (the empty string for an absent parameter); `parseAddr` is
`netip.ParseAddr` followed by `AsSlice` (`none` is a non-nil error). After "Missing name"
there is no `return`. -/
def websocketHandler (parseAddr : String → Option (List Byte))
    (ord : RangeOrder (Σ _ : String, Chan)) (now : Time) (s : state) (q : String → String) :
    Go HandlerRun :=
  let topicName := q "topic"
  if topicName = "" then
    .ret ⟨[(400, "Missing topic")], none, false, s⟩
  else
    let name := q "name"
    let errors : List (Nat × String) := if name = "" then [(400, "Missing name")] else []
    match parseAddr (q "ip") with
    | none => .ret ⟨errors ++ [(400, "Missing or invalid ip")], none, false, s⟩
    | some ip =>
      match parseUint16 (q "port") with
      | none => .ret ⟨errors ++ [(400, "Missing or invalid port")], none, false, s⟩
      | some port =>
        if port = 0 then
          .ret ⟨errors ++ [(400, "Missing or invalid port")], none, false, s⟩
        else
          let (t, s) := s.topic topicName
          match t.tryRegister ord name ip port now with
          | .panic => .panic
          | .ret ((ok, _), t) =>
            let s : state := ⟨s.topics.insert topicName t⟩
            if ok then
              .ret ⟨errors, some (topicName, name, ip, port), true, s⟩
            else
              .ret ⟨errors ++ [(401, "Client with that name already exists")],
                some (topicName, name, ip, port), false, s⟩

/-! ## Client peer registry (`client/peers.go`) -/

/-- A `netip.Addr` as `netip.AddrFromSlice` makes it: the 4 or 16 octets of the address, or
`none` for the zero `Addr` (a slice of any other length). -/
abbrev Addr := Option (List Byte)

/-- Model of `netip.AddrFromSlice`. -/
def addrFromSlice (ip : List Byte) : Addr :=
  if ip.length = 4 ∨ ip.length = 16 then some ip else none

/-- A `netip.AddrPort`. -/
structure AddrPort where
  addr : Addr
  port : Nat
  deriving DecidableEq, Repr

/-- Model of `Peer.IPPort`. The conversion `uint16(p.Port)` of a `uint16` changes nothing. -/
def Peer.IPPort (p : Peer) : AddrPort :=
  ⟨addrFromSlice p.IP, p.Port⟩

/-- A `net.UDPAddr`: `Port` is a Go `int`. -/
structure UDPAddr where
  IP : List Byte
  Port : Int
  deriving DecidableEq, Repr

/-- The conversion `uint16(x)` of a Go `int`. -/
def toUint16 (x : Int) : Nat := (x % 65536).toNat

/-- The key `onPing` and `peerName` compute for a sender address: the `IPPort()` of a `Peer`
that has only `IP` and `Port` set. -/
def UDPAddr.key (addr : UDPAddr) : AddrPort :=
  (Peer.mk "" addr.IP (toUint16 addr.Port) 0).IPPort

/-- The lines the peer registry logs. -/
inductive LogEvent where
  | disconnected (k : AddrPort) (name : String)
  | newPeer (k : AddrPort) (name : String)
  | established (k : AddrPort) (name : String)
  deriving DecidableEq, Repr

/-- The fields of the struct `peerRegistry` that `handlePeerList`, `onPing`, `peerName` and
`forEachPeerAddress` read or write (not `mu`, `baseUrl`, `doStop`, `socket`). The set
`holepunched` is a `map[netip.AddrPort]struct{}`. -/
structure peerRegistry where
  peers : AList (fun _ : AddrPort => Peer)
  holepunched : Finset AddrPort
  selfPeer : Peer
  topic : String

/-- The registry `newPeerRegistry` builds, before any push is handled. -/
def peerRegistry.new (topic name : String) (selfAddr : UDPAddr) : peerRegistry :=
  ⟨∅, ∅, ⟨name, selfAddr.IP, toUint16 selfAddr.Port, 0⟩, topic⟩

/-- The three maps of the first loop of `handlePeerList`. `prev := p.peers` copies a map
reference, so `prev` and `p.peers` are one map (`cur`) until `p.peers = next`. -/
structure PushLoop where
  cur : AList (fun _ : AddrPort => Peer)
  discovered : AList (fun _ : AddrPort => Peer)
  next : AList (fun _ : AddrPort => Peer)

/-- The body of the first loop of `handlePeerList`, for the record `v` of the push. The test
`p.peers[k]` reads the map `delete(prev, k)` writes. -/
def pushStep (st : PushLoop) (v : Peer) : PushLoop :=
  let k := v.IPPort
  let discovered := if k ∈ st.cur then st.discovered else st.discovered.insert k v
  ⟨st.cur.erase k, discovered, st.next.insert k v⟩

/-- The body of the loop over `prev` in `handlePeerList`. -/
def dropStep (me : AddrPort) (acc : Finset AddrPort × List LogEvent)
    (e : Σ _ : AddrPort, Peer) : Finset AddrPort × List LogEvent :=
  if e.1 = me then acc
  else (acc.1.erase e.1, acc.2 ++ [.disconnected e.1 e.2.Name])

/-- The body of the loop over `discovered` in `handlePeerList`. -/
def announceStep (me : AddrPort) (log : List LogEvent) (e : Σ _ : AddrPort, Peer) :
    List LogEvent :=
  if e.1 = me then log else log ++ [.newPeer e.1 e.2.Name]

/-- What `handlePeerList` leaves: the registry, the lines logged, and whether the returned
error is non-nil ("Malformed response"). -/
structure PushResult where
  p : peerRegistry
  log : List LogEvent
  malformed : Bool

/-- Model of `peerRegistry.handlePeerList`. `decoded` is what `json.Unmarshal` gives for the
raw message: `none` for an error, otherwise the records of `r.Peers`. -/
def peerRegistry.handlePeerList (ordPrev ordDisc : RangeOrder (Σ _ : AddrPort, Peer))
    (p : peerRegistry) (decoded : Option (List Peer)) : PushResult :=
  match decoded with
  | none => ⟨p, [], true⟩
  | some rPeers =>
    let st := rPeers.foldl pushStep ⟨p.peers, ∅, ∅⟩
    let me := p.selfPeer.IPPort
    let dropped := (ordPrev.visit st.cur.entries).foldl (dropStep me) (p.holepunched, [])
    let log := (ordDisc.visit st.discovered.entries).foldl (announceStep me) dropped.2
    ⟨{ p with peers := st.next, holepunched := dropped.1 }, log, false⟩

/-- Model of `peerRegistry.onPing`: the registry afterwards and the lines logged. -/
def peerRegistry.onPing (p : peerRegistry) (addr : UDPAddr) : peerRegistry × List LogEvent :=
  let k := addr.key
  let punched := decide (k ∈ p.holepunched)
  let p' := { p with holepunched := insert k p.holepunched }
  if !punched then
    match p.peers.lookup k with
    | none => (p', [])
    | some v => (p', [.established k v.Name])
  else (p', [])

/-- Model of `peerRegistry.peerName`. -/
def peerRegistry.peerName (p : peerRegistry) (addr : UDPAddr) : String :=
  match p.peers.lookup addr.key with
  | some v => v.Name
  | none => "<unknown peer>"

/-- Model of `peerRegistry.forEachPeerAddress`: the arguments of the calls of `f`, in order. -/
def peerRegistry.forEachPeerAddress (ord : RangeOrder (Σ _ : AddrPort, Peer))
    (p : peerRegistry) : List UDPAddr :=
  let me := p.selfPeer.IPPort
  (ord.visit p.peers.entries).foldl
    (fun calls e => if e.1 = me then calls else calls ++ [⟨e.2.IP, (e.2.Port : Int)⟩]) []

/-- One event of the client: a peer-list push that decoded to `rPeers`, or a ping probe
received from `addr`. -/
inductive RegOp where
  | push (ordPrev ordDisc : RangeOrder (Σ _ : AddrPort, Peer)) (rPeers : List Peer)
  | ping (addr : UDPAddr)

/-- The registry after one event. -/
def peerRegistry.step (p : peerRegistry) : RegOp → peerRegistry
  | .push ordPrev ordDisc rPeers => (p.handlePeerList ordPrev ordDisc (some rPeers)).p
  | .ping addr => (p.onPing addr).1

/-- The registry after a sequence of events. -/
def peerRegistry.run (p : peerRegistry) (ops : List RegOp) : peerRegistry :=
  ops.foldl peerRegistry.step p

/-- Every registry state a sequence of events goes through, the first one included. -/
def peerRegistry.trace (p : peerRegistry) : List RegOp → List peerRegistry
  | [] => [p]
  | op :: ops => p :: (p.step op).trace ops

/-- The keys of the sender addresses of the ping events of a sequence. -/
def pingedKeys : List RegOp → Finset AddrPort
  | [] => ∅
  | .ping addr :: ops => insert addr.key (pingedKeys ops)
  | .push _ _ _ :: ops => pingedKeys ops

/-- The invariant of a topic that every call keeps: the peer mapping and the notification
mapping have the same names, every channel in the notification mapping is open, every record
is stored under its own name, and a cached list, when there is one, lists the records of the
peer mapping. -/
structure topic.Inv (t : topic) : Prop where
  sameKeys : ∀ k, k ∈ t.peers ↔ k ∈ t.notifications
  allOpen : ∀ k c, t.notifications.lookup k = some c → c.closed = false
  named : ∀ k p, t.peers.lookup k = some p → p.Name = k
  cacheFresh : ∀ l, t.peerList = some l → l.Perm (t.peers.entries.map (·.2))

/-! ## Sample data -/

/-- The address 203.0.113.5, as four octets. -/
def ipAlice : List Byte := [203, 0, 113, 5]

/-- The address 198.51.100.7, as four octets. -/
def ipBob : List Byte := [198, 51, 100, 7]

/-- A topic in which "alice" alone is registered, with one pending wake. -/
def topicAlice : topic :=
  ⟨AList.singleton "alice" ⟨"alice", ipAlice, 40000, 0⟩, AList.singleton "alice" ⟨1, false⟩, none⟩

/-- The calls "register alice, register bob, unregister alice". -/
def opsAliceBob : List TopicOp :=
  [.tryRegister (RangeOrder.asStored _) "alice" ipAlice 40000 1,
   .tryRegister (RangeOrder.reversed _) "bob" ipBob 50000 2,
   .unregister (RangeOrder.asStored _) "alice"]

/-- A topic in which "bob" alone is registered, with one pending wake. -/
def topicBob : topic :=
  ⟨AList.singleton "bob" ⟨"bob", ipBob, 50000, 2⟩, AList.singleton "bob" ⟨1, false⟩, none⟩

/-- A topic in which "alice" alone is registered and her channel is empty. -/
def topicAliceIdle : topic :=
  ⟨AList.singleton "alice" ⟨"alice", ipAlice, 40000, 0⟩, AList.singleton "alice" ⟨0, false⟩, none⟩

/-- Three membership changes: "bob" joins, "carol" joins, "bob" leaves. -/
def threeChanges : List TopicOp :=
  [.tryRegister (RangeOrder.asStored _) "bob" ipBob 50000 1,
   .tryRegister (RangeOrder.asStored _) "carol" ipBob 50001 2,
   .unregister (RangeOrder.asStored _) "bob"]

/-- The topic `topicAliceIdle` after `threeChanges`. -/
def topicAliceCarol : topic :=
  ⟨(AList.singleton "alice" ⟨"alice", ipAlice, 40000, 0⟩).insert "carol" ⟨"carol", ipBob, 50001, 2⟩,
   (AList.singleton "alice" ⟨1, false⟩).insert "carol" ⟨1, false⟩, none⟩

/-- The registry of "alice" at 203.0.113.5:40000 in topic "t", before any push. -/
def registryAlice : peerRegistry :=
  peerRegistry.new "t" "alice" ⟨ipAlice, 40000⟩

/-- The record of "alice" as the server lists it. -/
def peerAlice : Peer := ⟨"alice", ipAlice, 40000, 1⟩

/-- The record of "bob" at 198.51.100.7:50000. -/
def peerBob : Peer := ⟨"bob", ipBob, 50000, 2⟩

/-- The record of "carol" at 198.51.100.7:50001. -/
def peerCarol : Peer := ⟨"carol", ipBob, 50001, 3⟩

/-- The sender address 198.51.100.7:50000 of "bob". -/
def udpBob : UDPAddr := ⟨ipBob, 50000⟩

/-- The registry of "alice" after the push that lists "bob" and "carol". -/
def registryAliceKnowsBob : peerRegistry :=
  (registryAlice.handlePeerList (RangeOrder.asStored _) (RangeOrder.asStored _)
    (some [peerBob, peerCarol])).p

/-- The values of `netip.ParseAddr` (then `AsSlice`) on the two address strings of the
sample data; used only where a handshake is evaluated on one of these strings or on a string
that is no address at all. -/
def sampleParseAddr (s : String) : Option (List Byte) :=
  if s = "203.0.113.5" then some ipAlice
  else if s = "198.51.100.7" then some ipBob
  else none

/-- The query `?topic=t&ip=203.0.113.5&port=40000`: no `name` parameter. -/
def queryNoName (k : String) : String :=
  if k = "topic" then "t"
  else if k = "ip" then "203.0.113.5"
  else if k = "port" then "40000"
  else ""

/-- The argument `forEachPeerAddress` passes to `f` for the map entry `e`:
`&net.UDPAddr{IP: v.IP, Port: int(v.Port)}`. -/
def callOf (e : Σ _ : AddrPort, Peer) : UDPAddr :=
  ⟨e.2.IP, (e.2.Port : Int)⟩

/-- Every record of a peer mapping is stored under its own address. -/
def Keyed (m : AList (fun _ : AddrPort => Peer)) : Prop :=
  ∀ k v, m.lookup k = some v → v.IPPort = k

/-- A second record, "bobby", at the address 198.51.100.7:50000 of "bob". -/
def peerBobTwin : Peer := ⟨"bobby", ipBob, 50000, 4⟩

/-- The event "the push that lists alice and bob arrives at alice". -/
def pushAliceBob : RegOp :=
  .push (RangeOrder.asStored _) (RangeOrder.asStored _) [peerAlice, peerBob]

/-! ### Wire framer: facts -/

theorem bigEndianBytes_length (v : Nat) : (bigEndianBytes v).length = 8 := by
  simp [bigEndianBytes]

theorem uint64_bigEndianBytes_magicData : uint64 (bigEndianBytes magicData) = magicData := by
  decide

theorem take8_putUint64 (b : List Byte) (v : Nat) : (putUint64 b v).take 8 = bigEndianBytes v := by
  simp [putUint64, List.take_append_of_le_length, bigEndianBytes_length]

theorem makeDataMessage_eq (rnd : Nat → Byte) (data : List Byte) :
    makeDataMessage rnd data
      = bigEndianBytes magicData ++ ((List.range 128).map rnd).drop 8 ++ data := by
  have h1 : List.drop (128 + data.length)
      ((List.range 128).map rnd ++ List.replicate data.length (0 : Byte)) = [] := by
    apply List.drop_eq_nil_of_le
    simp
  have h2 : 8 ≤ ((List.range 128).map rnd).length := by simp
  simp [makeDataMessage, putUint64, copyAt, randRead, h1, List.drop_append_of_le_length h2]

theorem makeDataMessage_length (rnd : Nat → Byte) (data : List Byte) :
    (makeDataMessage rnd data).length = 128 + data.length := by
  simp [makeDataMessage_eq, bigEndianBytes_length]
  omega

theorem makeDataMessage_take8 (rnd : Nat → Byte) (data : List Byte) :
    (makeDataMessage rnd data).take 8 = bigEndianBytes magicData := by
  simp [makeDataMessage, take8_putUint64]

theorem makeDataMessage_drop128 (rnd : Nat → Byte) (data : List Byte) :
    (makeDataMessage rnd data).drop 128 = data := by
  have h : (bigEndianBytes magicData ++ ((List.range 128).map rnd).drop 8).length = 128 := by
    simp [bigEndianBytes_length]
  rw [makeDataMessage_eq]
  exact List.drop_left' h

/-- C1. Decoding an encoded data message succeeds with kind `magicData` and returns exactly
the payload, for every payload (the empty one included) and every content of the random
filler. -/
theorem parseMessage_makeDataMessage (rnd : Nat → Byte) (payload : List Byte) :
    parseMessage (makeDataMessage rnd payload) = .ret ⟨some payload, magicData, none⟩ := by
  have hlen := makeDataMessage_length rnd payload
  simp only [parseMessage, makeDataMessage_take8, uint64_bigEndianBytes_magicData,
    makeDataMessage_drop128, hlen]
  have h8 : ¬ (128 + payload.length < 8) := by omega
  simp [h8]

theorem parseMessage_truncated_data_panics (msg : List Byte) (h8 : 8 ≤ msg.length)
    (h128 : msg.length < 128) (hm : uint64 (msg.take 8) = magicData) :
    parseMessage msg = .panic := by
  simp [parseMessage, hm, Nat.not_lt.mpr h8, Nat.not_le.mpr h128]

/-- C2, the code at the failing input. The datagram made of exactly the eight octets
"DATADATA" starts with the DATA magic and is shorter than 128 octets; `parseMessage` panics
on `msg[128:]` and returns no error value. -/
theorem parseMessage_eight_octet_data_panics :
    (bigEndianBytes magicData).length = 8
    ∧ uint64 ((bigEndianBytes magicData).take 8) = magicData
    ∧ parseMessage (bigEndianBytes magicData) = .panic := by
  decide

/-- C3. `parseMessage` rejects every datagram that does not start with a known magic and
returns no payload for it: a datagram shorter than eight octets gets the "Message too small"
error, and a datagram of at least eight octets whose first eight octets, read big-endian, are
neither `magicData` nor `magicPing` gets the "Unknown magic" error. -/
theorem parseMessage_rejects (msg : List Byte) :
    (msg.length < 8 → parseMessage msg = .ret ⟨none, 0, some .messageTooSmall⟩)
    ∧ (8 ≤ msg.length → uint64 (msg.take 8) ≠ magicData → uint64 (msg.take 8) ≠ magicPing →
        parseMessage msg = .ret ⟨none, 0, some (.unknownMagic (uint64 (msg.take 8)))⟩) := by
  constructor
  · intro h
    simp [parseMessage, h]
  · intro h8 hd hp
    simp [parseMessage, Nat.not_lt.mpr h8, hd, hp]

/-- Witness for C3 on the empty datagram and on eight zero octets. -/
theorem parseMessage_rejects_witness :
    parseMessage [] = .ret ⟨none, 0, some .messageTooSmall⟩
    ∧ parseMessage (List.replicate 8 0) = .ret ⟨none, 0, some (.unknownMagic 0)⟩ :=
  ⟨(parseMessage_rejects []).1 (by decide),
   (parseMessage_rejects (List.replicate 8 0)).2 (by decide) (by decide) (by decide)⟩

/-! ### Topic registry: facts -/

theorem Chan.trySend_open (ch : Chan) (h : ch.closed = false) : ch.trySend = .ret ch.wake := by
  unfold Chan.trySend Chan.wake
  by_cases hl : ch.len < Chan.cap <;> simp [h, hl]

theorem wakeFold (l : List (Σ _ : String, Chan)) :
    l.NodupKeys → (∀ e ∈ l, e.2.closed = false) → ∀ t0 : topic,
    ∃ t', l.foldl wakeStep (.ret t0) = .ret t' ∧ t'.peers = t0.peers
      ∧ t'.peerList = t0.peerList
      ∧ ∀ k, t'.notifications.lookup k
          = (match l.dlookup k with
             | some c => some c.wake
             | none => t0.notifications.lookup k) := by
  induction l with
  | nil =>
    intro _ _ t0
    exact ⟨t0, rfl, rfl, rfl, fun k => rfl⟩
  | cons e l ih =>
    intro hnd hopen t0
    rw [List.nodupKeys_cons] at hnd
    have he : e.2.closed = false := hopen e (List.mem_cons_self _ _)
    obtain ⟨t', h1, h2, h3, h4⟩ := ih hnd.2 (fun x hx => hopen x (List.mem_cons_of_mem _ hx))
      { t0 with notifications := t0.notifications.insert e.1 e.2.wake }
    refine ⟨t', ?_, h2, h3, ?_⟩
    · rw [List.foldl_cons]
      have : wakeStep (.ret t0) e
          = .ret { t0 with notifications := t0.notifications.insert e.1 e.2.wake } := by
        simp [wakeStep, Chan.trySend_open e.2 he]
      rw [this, h1]
    · intro k
      rw [h4 k]
      by_cases hk : k = e.1
      · subst hk
        have hnone : l.dlookup e.1 = none := List.dlookup_eq_none.mpr hnd.1
        obtain ⟨k0, c0⟩ := e
        simp only at hnone ⊢
        rw [hnone, List.dlookup_cons_eq]
        simp [AList.lookup_insert]
      · obtain ⟨k0, c0⟩ := e
        simp only at hk ⊢
        rw [List.dlookup_cons_ne _ _ hk]
        cases hl : l.dlookup k with
        | some c => rfl
        | none => simp [AList.lookup_insert_ne hk]

theorem topic.peersChanged_open (ord : RangeOrder (Σ _ : String, Chan)) (t : topic)
    (hopen : ∀ k c, t.notifications.lookup k = some c → c.closed = false) :
    ∃ t', t.peersChanged ord = .ret t' ∧ t'.peers = t.peers ∧ t'.peerList = none
      ∧ ∀ k, t'.notifications.lookup k = (t.notifications.lookup k).map Chan.wake := by
  have hperm := ord.perm t.notifications.entries
  have hnd : (ord.visit t.notifications.entries).NodupKeys :=
    (List.perm_nodupKeys hperm).mpr t.notifications.nodupKeys
  have hop : ∀ e ∈ ord.visit t.notifications.entries, e.2.closed = false := by
    intro e he
    have hmem : e ∈ t.notifications.entries := hperm.subset he
    obtain ⟨k, c⟩ := e
    exact hopen k c (AList.mem_lookup_iff.mpr hmem)
  obtain ⟨t', h1, h2, h3, h4⟩ := wakeFold _ hnd hop { t with peerList := none }
  refine ⟨t', h1, h2, h3, ?_⟩
  intro k
  rw [h4 k, List.perm_dlookup k hnd t.notifications.nodupKeys hperm]
  show _ = Option.map Chan.wake (List.dlookup k t.notifications.entries)
  cases hl : List.dlookup k t.notifications.entries with
  | some c => rfl
  | none => exact hl

theorem topic.tryRegister_taken (ord : RangeOrder (Σ _ : String, Chan)) (t : topic)
    (n : String) (ip : List Byte) (port : Nat) (now : Time) (h : n ∈ t.peers) :
    t.tryRegister ord n ip port now = .ret ((false, none), t) := by
  simp [topic.tryRegister, h]

/-- C4. When a peer named `n` is registered, `tryRegister(n, ip, port)` returns
`(false, nil)` and the topic after the call is the topic before it: the peer mapping (so the
record of the first registration, with its ip, port and lastSeen), the notification channels
with their pending wakes, and the cached list (so what `getPeerList` returns) are untouched. -/
theorem tryRegister_name_taken (ord : RangeOrder (Σ _ : String, Chan)) (t : topic)
    (n : String) (ip : List Byte) (port : Nat) (now : Time) (h : n ∈ t.peers) :
    t.tryRegister ord n ip port now = .ret ((false, none), t)
    ∧ ∀ t', t.step (.tryRegister ord n ip port now) = .ret t' →
        t'.peers = t.peers ∧ t'.notifications = t.notifications
        ∧ ∀ ordl, t'.getPeerList ordl = t.getPeerList ordl := by
  have h1 := topic.tryRegister_taken ord t n ip port now h
  refine ⟨h1, ?_⟩
  intro t' ht
  simp only [topic.step, h1, Go.ret.injEq] at ht
  subst ht
  exact ⟨rfl, rfl, fun _ => rfl⟩

/-- Witness for C4: a second registration of "alice", from another address. -/
theorem tryRegister_name_taken_witness :
    "alice" ∈ topicAlice.peers
    ∧ topicAlice.tryRegister (RangeOrder.asStored _) "alice" ipBob 50000 7
        = .ret ((false, none), topicAlice) :=
  ⟨by decide,
   (tryRegister_name_taken (RangeOrder.asStored _) topicAlice "alice" ipBob 50000 7
      (by decide)).1⟩

theorem topic.tryRegister_fresh (ord : RangeOrder (Σ _ : String, Chan)) (t : topic)
    (n : String) (ip : List Byte) (port : Nat) (now : Time) (hn : n ∉ t.peers)
    (hopen : ∀ k c, t.notifications.lookup k = some c → c.closed = false) :
    ∃ t', t.tryRegister ord n ip port now = .ret ((true, some n), t')
      ∧ t'.peers = t.peers.insert n ⟨n, ip, port, now⟩ ∧ t'.peerList = none
      ∧ ∀ k, t'.notifications.lookup k
          = ((t.notifications.insert n Chan.make).lookup k).map Chan.wake := by
  have hopen' : ∀ k c, (t.notifications.insert n Chan.make).lookup k = some c →
      c.closed = false := by
    intro k c hk
    by_cases hkn : k = n
    · subst hkn
      rw [AList.lookup_insert] at hk
      cases hk
      rfl
    · rw [AList.lookup_insert_ne hkn] at hk
      exact hopen k c hk
  obtain ⟨t', h1, h2, h3, h4⟩ := topic.peersChanged_open ord
    { peers := t.peers.insert n ⟨n, ip, port, now⟩,
      notifications := t.notifications.insert n Chan.make,
      peerList := t.peerList } hopen'
  refine ⟨t', ?_, h2, h3, h4⟩
  simp only [topic.tryRegister, hn, if_false, h1]

theorem topic.unregister_held (ord : RangeOrder (Σ _ : String, Chan)) (t : topic)
    (n : String) (hn : n ∈ t.notifications)
    (hopen : ∀ k c, t.notifications.lookup k = some c → c.closed = false) :
    ∃ t', t.unregister ord n = .ret t' ∧ t'.peers = t.peers.erase n ∧ t'.peerList = none
      ∧ ∀ k, t'.notifications.lookup k = ((t.notifications.erase n).lookup k).map Chan.wake := by
  obtain ⟨c, hc⟩ := Option.isSome_iff_exists.mp (AList.lookup_isSome.mpr hn)
  have hco : c.closed = false := hopen n c hc
  have hopen' : ∀ k c, (t.notifications.erase n).lookup k = some c → c.closed = false := by
    intro k c hk
    by_cases hkn : k = n
    · subst hkn
      rw [AList.lookup_erase] at hk
      cases hk
    · rw [AList.lookup_erase_ne hkn] at hk
      exact hopen k c hk
  obtain ⟨t', h1, h2, h3, h4⟩ := topic.peersChanged_open ord
    { peers := t.peers.erase n,
      notifications := t.notifications.erase n,
      peerList := t.peerList } hopen'
  refine ⟨t', ?_, h2, h3, h4⟩
  simp only [topic.unregister, hc, Chan.close, hco, h1]
  simp

theorem mem_of_lookup_map {β γ : Type} (f : γ → β) (m' : AList (fun _ : String => β))
    (m : AList (fun _ : String => γ)) (h : ∀ k, m'.lookup k = (m.lookup k).map f) (k : String) :
    k ∈ m' ↔ k ∈ m := by
  rw [← AList.lookup_isSome, ← AList.lookup_isSome, h k, Option.isSome_map']

theorem Chan.wake_closed (c : Chan) : c.wake.closed = c.closed := by
  unfold Chan.wake
  split <;> rfl

theorem open_of_lookup_map (m' m : AList (fun _ : String => Chan))
    (h : ∀ k, m'.lookup k = (m.lookup k).map Chan.wake)
    (hopen : ∀ k c, m.lookup k = some c → c.closed = false) :
    ∀ k c, m'.lookup k = some c → c.closed = false := by
  intro k c hk
  rw [h k] at hk
  obtain ⟨c0, hc0, rfl⟩ := Option.map_eq_some'.mp hk
  rw [Chan.wake_closed]
  exact hopen k c0 hc0

theorem topic.zero_inv : topic.zero.Inv :=
  ⟨fun _ => Iff.rfl, fun _ _ h => (by cases h), fun _ _ h => (by cases h),
   fun _ h => (by cases h)⟩

theorem sliceFold (l : List (Σ _ : String, Peer)) (s0 : Option (List Peer)) :
    l ≠ [] → l.foldl (fun s e => sliceAppend s e.2) s0 = some (s0.getD [] ++ l.map (·.2)) := by
  induction l generalizing s0 with
  | nil => intro h; exact absurd rfl h
  | cons e l ih =>
    intro _
    rw [List.foldl_cons]
    by_cases hl : l = []
    · subst hl
      simp [sliceAppend]
    · rw [ih _ hl]
      simp [sliceAppend]

theorem topic.getPeerList_uncached (ord : RangeOrder (Σ _ : String, Peer)) (t : topic)
    (h : t.peerList = none) :
    ((t.getPeerList ord).1.getD []) = (ord.visit t.peers.entries).map (·.2)
    ∧ (t.getPeerList ord).2.peerList = (t.getPeerList ord).1
    ∧ (t.getPeerList ord).2.peers = t.peers
    ∧ (t.getPeerList ord).2.notifications = t.notifications := by
  unfold topic.getPeerList
  rw [h]
  refine ⟨?_, rfl, rfl, rfl⟩
  by_cases hl : ord.visit t.peers.entries = []
  · simp [hl]
  · simp [sliceFold _ none hl]

theorem topic.getPeerList_perm (ord : RangeOrder (Σ _ : String, Peer)) (t : topic)
    (hi : t.Inv) : ((t.getPeerList ord).1.getD []).Perm (t.peers.entries.map (·.2)) := by
  cases hc : t.peerList with
  | none =>
    rw [(topic.getPeerList_uncached ord t hc).1]
    exact (ord.perm _).map _
  | some l =>
    have : t.getPeerList ord = (some l, t) := by simp [topic.getPeerList, hc]
    rw [this]
    exact hi.cacheFresh l hc

theorem topic.inv_tryRegister {t : topic} (hi : t.Inv) (ord : RangeOrder (Σ _ : String, Chan))
    (n : String) (ip : List Byte) (port : Nat) (now : Time) :
    ∃ r t', t.tryRegister ord n ip port now = .ret (r, t') ∧ t'.Inv := by
  by_cases hn : n ∈ t.peers
  · exact ⟨_, t, topic.tryRegister_taken ord t n ip port now hn, hi⟩
  · obtain ⟨t', h1, h2, h3, h4⟩ := topic.tryRegister_fresh ord t n ip port now hn hi.allOpen
    refine ⟨_, t', h1, ⟨?_, ?_, ?_, ?_⟩⟩
    · intro k
      rw [mem_of_lookup_map _ _ _ h4 k, h2, AList.mem_insert, AList.mem_insert, hi.sameKeys k]
    · apply open_of_lookup_map _ _ h4
      intro k c hk
      by_cases hkn : k = n
      · subst hkn
        rw [AList.lookup_insert] at hk
        cases hk
        rfl
      · rw [AList.lookup_insert_ne hkn] at hk
        exact hi.allOpen k c hk
    · intro k p hk
      rw [h2] at hk
      by_cases hkn : k = n
      · subst hkn
        rw [AList.lookup_insert] at hk
        cases hk
        rfl
      · rw [AList.lookup_insert_ne hkn] at hk
        exact hi.named k p hk
    · intro l hl
      rw [h3] at hl
      cases hl

theorem topic.inv_updateLastSeen {t : topic} (hi : t.Inv) (n : String) (now : Time) :
    (t.updateLastSeen n now).Inv := by
  unfold topic.updateLastSeen
  cases hv : t.peers.lookup n with
  | none => exact hi
  | some v =>
    have hn : n ∈ t.peers := AList.lookup_isSome.mp (by rw [hv]; rfl)
    refine ⟨?_, hi.allOpen, ?_, ?_⟩
    · intro k
      show k ∈ t.peers.insert n _ ↔ k ∈ t.notifications
      rw [AList.mem_insert, ← hi.sameKeys k]
      constructor
      · rintro (rfl | h)
        · exact hn
        · exact h
      · exact Or.inr
    · intro k p hk
      change (t.peers.insert n _).lookup k = some p at hk
      by_cases hkn : k = n
      · subst hkn
        rw [AList.lookup_insert] at hk
        cases hk
        exact hi.named k v hv
      · rw [AList.lookup_insert_ne hkn] at hk
        exact hi.named k p hk
    · intro l hl
      cases hl

theorem topic.inv_unregister {t : topic} (hi : t.Inv) (ord : RangeOrder (Σ _ : String, Chan))
    (n : String) (t' : topic) (h : t.unregister ord n = .ret t') : t'.Inv := by
  have hn : n ∈ t.notifications := by
    by_contra hc
    have : t.notifications.lookup n = none := AList.lookup_eq_none.mpr hc
    simp [topic.unregister, this] at h
  obtain ⟨t'', h1, h2, h3, h4⟩ := topic.unregister_held ord t n hn hi.allOpen
  rw [h1] at h
  cases h
  refine ⟨?_, ?_, ?_, ?_⟩
  · intro k
    rw [mem_of_lookup_map _ _ _ h4 k, h2, AList.mem_erase, AList.mem_erase, hi.sameKeys k]
  · apply open_of_lookup_map _ _ h4
    intro k c hk
    by_cases hkn : k = n
    · subst hkn
      rw [AList.lookup_erase] at hk
      cases hk
    · rw [AList.lookup_erase_ne hkn] at hk
      exact hi.allOpen k c hk
  · intro k p hk
    rw [h2] at hk
    by_cases hkn : k = n
    · subst hkn
      rw [AList.lookup_erase] at hk
      cases hk
    · rw [AList.lookup_erase_ne hkn] at hk
      exact hi.named k p hk
  · intro l hl
    rw [h3] at hl
    cases hl

theorem topic.inv_getPeerList {t : topic} (hi : t.Inv) (ord : RangeOrder (Σ _ : String, Peer)) :
    (t.getPeerList ord).2.Inv := by
  cases hc : t.peerList with
  | some l =>
    have : t.getPeerList ord = (some l, t) := by simp [topic.getPeerList, hc]
    rw [this]
    exact hi
  | none =>
    obtain ⟨h1, h2, h3, h4⟩ := topic.getPeerList_uncached ord t hc
    refine ⟨?_, ?_, ?_, ?_⟩
    · rw [h3, h4]
      exact hi.sameKeys
    · rw [h4]
      exact hi.allOpen
    · rw [h3]
      exact hi.named
    · intro l hl
      rw [h2] at hl
      have := topic.getPeerList_perm ord t hi
      rw [hl] at this
      rw [h3]
      exact this

theorem topic.inv_step {t : topic} (hi : t.Inv) (op : TopicOp) (t' : topic)
    (h : t.step op = .ret t') : t'.Inv := by
  cases op with
  | tryRegister ord n ip port now =>
    obtain ⟨r, t'', h1, h2⟩ := topic.inv_tryRegister hi ord n ip port now
    simp only [topic.step, h1, Go.ret.injEq] at h
    subst h
    exact h2
  | updateLastSeen n now =>
    simp only [topic.step, Go.ret.injEq] at h
    subst h
    exact topic.inv_updateLastSeen hi n now
  | unregister ord n => exact topic.inv_unregister hi ord n t' h
  | getPeerList ord =>
    simp only [topic.step, Go.ret.injEq] at h
    subst h
    exact topic.inv_getPeerList hi ord

theorem topic.inv_run {t : topic} (hi : t.Inv) (ops : List TopicOp) (t' : topic)
    (h : t.run ops = .ret t') : t'.Inv := by
  induction ops generalizing t with
  | nil =>
    simp only [topic.run, Go.ret.injEq] at h
    subst h
    exact hi
  | cons op ops ih =>
    unfold topic.run at h
    cases hs : t.step op with
    | panic => simp [hs] at h
    | ret t1 =>
      rw [hs] at h
      exact ih (topic.inv_step hi op t1 hs) h

theorem topic.inv_step_returns {t : topic} (hi : t.Inv) (op : TopicOp)
    (hop : ∀ ord n, op = .unregister ord n → n ∈ t.peers) : ∃ t', t.step op = .ret t' := by
  cases op with
  | tryRegister ord n ip port now =>
    obtain ⟨r, t'', h1, _⟩ := topic.inv_tryRegister hi ord n ip port now
    exact ⟨t'', by simp [topic.step, h1]⟩
  | updateLastSeen n now => exact ⟨_, rfl⟩
  | unregister ord n =>
    have hn : n ∈ t.notifications := (hi.sameKeys n).mp (hop ord n rfl)
    obtain ⟨t', h1, _⟩ := topic.unregister_held ord t n hn hi.allOpen
    exact ⟨t', h1⟩
  | getPeerList ord => exact ⟨_, rfl⟩

theorem topic.values_names {t : topic} (hi : t.Inv) :
    (t.peers.entries.map (·.2)).map (·.Name) = t.peers.keys := by
  unfold AList.keys List.keys
  rw [List.map_map]
  apply List.map_congr_left
  intro e he
  obtain ⟨k, p⟩ := e
  exact hi.named k p (AList.mem_lookup_iff.mpr he)

theorem topic.mem_values {t : topic} (hi : t.Inv) (p : Peer) :
    p ∈ t.peers.entries.map (·.2) ↔ t.peers.lookup p.Name = some p := by
  rw [List.mem_map]
  constructor
  · rintro ⟨⟨k, q⟩, he, rfl⟩
    have hl : t.peers.lookup k = some q := AList.mem_lookup_iff.mpr he
    have hk : q.Name = k := hi.named k q hl
    simp only
    rw [hk]
    exact hl
  · intro hl
    exact ⟨⟨p.Name, p⟩, AList.mem_lookup_iff.mp hl, rfl⟩

theorem erase_insert_insert_empty (a b : String) (ra rb : Peer) (hab : a ≠ b) :
    (((∅ : AList (fun _ : String => Peer)).insert a ra).insert b rb).erase a
      = AList.singleton b rb := by
  apply AList.ext
  simp [AList.erase, AList.insert_entries, List.kerase_cons_ne, hab, Ne.symm hab]

theorem topic.run_scenario (o1 o2 o3 : RangeOrder (Σ _ : String, Chan)) (a b : String)
    (ipa ipb : List Byte) (pa pb : Nat) (ta tb : Time) (hab : a ≠ b) :
    ∃ t, topic.zero.run [.tryRegister o1 a ipa pa ta, .tryRegister o2 b ipb pb tb,
        .unregister o3 a] = .ret t
      ∧ t.peers = AList.singleton b ⟨b, ipb, pb, tb⟩ ∧ t.peerList = none := by
  have ha : a ∉ topic.zero.peers := AList.not_mem_empty a
  obtain ⟨t1, h1, hp1, -, -⟩ :=
    topic.tryRegister_fresh o1 topic.zero a ipa pa ta ha topic.zero_inv.allOpen
  have hs1 : topic.zero.step (.tryRegister o1 a ipa pa ta) = .ret t1 := by
    simp [topic.step, h1]
  have hi1 : t1.Inv := topic.inv_step topic.zero_inv _ t1 hs1
  have hb : b ∉ t1.peers := by
    rw [hp1, AList.mem_insert]
    rintro (h | h)
    · exact hab h.symm
    · exact AList.not_mem_empty b h
  obtain ⟨t2, h2, hp2, -, -⟩ := topic.tryRegister_fresh o2 t1 b ipb pb tb hb hi1.allOpen
  have hs2 : t1.step (.tryRegister o2 b ipb pb tb) = .ret t2 := by
    simp [topic.step, h2]
  have hi2 : t2.Inv := topic.inv_step hi1 _ t2 hs2
  have ha2 : a ∈ t2.notifications := by
    rw [← hi2.sameKeys a, hp2, hp1, AList.mem_insert, AList.mem_insert]
    exact Or.inr (Or.inl rfl)
  obtain ⟨t3, h3, hp3, hc3, -⟩ := topic.unregister_held o3 t2 a ha2 hi2.allOpen
  refine ⟨t3, ?_, ?_, hc3⟩
  · simp only [topic.run, topic.step, h1, h2, h3]
  · rw [hp3, hp2, hp1]
    exact erase_insert_insert_empty a b _ _ hab

/-- C5. After every sequence of `tryRegister`, `updateLastSeen`, `unregister` and `getPeerList`
calls on an initially empty topic, `getPeerList` returns exactly the records of the peer
mapping (in the order of that call's loop), one record per registered name, each the record
the mapping holds under that name, and never a stale cached list. A further call panics
only if it is an `unregister` of a name that is not registered. After registering `a`,
registering `b` and unregistering `a`, the returned list is exactly the record of `b`. -/
theorem getPeerList_current (ops : List TopicOp) (t : topic)
    (h : topic.zero.run ops = .ret t) (ord : RangeOrder (Σ _ : String, Peer)) :
    ((t.getPeerList ord).1.getD []).Perm (t.peers.entries.map (·.2))
    ∧ (∀ p, p ∈ (t.getPeerList ord).1.getD [] ↔ t.peers.lookup p.Name = some p)
    ∧ (((t.getPeerList ord).1.getD []).map (·.Name)).Nodup
    ∧ (∀ op, (∀ o n, op = TopicOp.unregister o n → n ∈ t.peers) → ∃ t', t.step op = .ret t')
    ∧ (∀ o1 o2 o3 a b ipa ipb pa pb ta tb, a ≠ b →
        ops = [.tryRegister o1 a ipa pa ta, .tryRegister o2 b ipb pb tb, .unregister o3 a] →
        (t.getPeerList ord).1 = some [⟨b, ipb, pb, tb⟩]) := by
  have hi : t.Inv := topic.inv_run topic.zero_inv ops t h
  have hperm := topic.getPeerList_perm ord t hi
  refine ⟨hperm, ?_, ?_, topic.inv_step_returns hi, ?_⟩
  · intro p
    rw [hperm.mem_iff]
    exact topic.mem_values hi p
  · rw [(hperm.map _).nodup_iff, topic.values_names hi]
    exact t.peers.keys_nodup
  · intro o1 o2 o3 a b ipa ipb pa pb ta tb hab hops
    obtain ⟨t3, hr, hp, hc⟩ := topic.run_scenario o1 o2 o3 a b ipa ipb pa pb ta tb hab
    rw [hops, hr] at h
    have ht : t3 = t := Go.ret.inj h
    rw [ht] at hp hc
    have hv : ord.visit t.peers.entries = [⟨b, ⟨b, ipb, pb, tb⟩⟩] := by
      have := ord.perm t.peers.entries
      rw [hp, AList.singleton_entries] at this
      rw [hp, AList.singleton_entries]
      exact List.perm_singleton.mp this
    simp [topic.getPeerList, hc, hv, sliceAppend]

/-- Witness for C5: register "alice", register "bob", unregister "alice". -/
theorem getPeerList_current_witness :
    topic.zero.run opsAliceBob = .ret topicBob
    ∧ (topicBob.getPeerList (RangeOrder.asStored _)).1 = some [⟨"bob", ipBob, 50000, 2⟩] :=
  ⟨rfl,
   (getPeerList_current opsAliceBob topicBob rfl (RangeOrder.asStored _)).2.2.2.2
     _ _ _ "alice" "bob" _ _ _ _ _ _ (by decide) rfl⟩

theorem foldl_wakeStep_panic (l : List (Σ _ : String, Chan)) :
    l.foldl wakeStep .panic = .panic := by
  induction l with
  | nil => rfl
  | cons e l ih => rw [List.foldl_cons]; exact ih

theorem wakeFold_open (l : List (Σ _ : String, Chan)) (t0 t' : topic)
    (h : l.foldl wakeStep (.ret t0) = .ret t') : ∀ e ∈ l, e.2.closed = false := by
  induction l generalizing t0 with
  | nil => intro e he; cases he
  | cons e l ih =>
    rw [List.foldl_cons] at h
    cases hc : e.2.closed with
    | true =>
      have : wakeStep (.ret t0) e = .panic := by simp [wakeStep, Chan.trySend, hc]
      rw [this, foldl_wakeStep_panic] at h
      cases h
    | false =>
      have : wakeStep (.ret t0) e
          = .ret { t0 with notifications := t0.notifications.insert e.1 e.2.wake } := by
        simp [wakeStep, Chan.trySend_open e.2 hc]
      rw [this] at h
      intro x hx
      rcases List.mem_cons.mp hx with rfl | hx
      · exact hc
      · exact ih _ h x hx

theorem topic.peersChanged_ret (ord : RangeOrder (Σ _ : String, Chan)) (t t' : topic)
    (h : t.peersChanged ord = .ret t') :
    ∀ k, t'.notifications.lookup k = (t.notifications.lookup k).map Chan.wake := by
  have hopen : ∀ k c, t.notifications.lookup k = some c → c.closed = false := by
    intro k c hk
    have hmem : (⟨k, c⟩ : Σ _ : String, Chan) ∈ ord.visit t.notifications.entries :=
      (ord.perm _).symm.subset (AList.mem_lookup_iff.mp hk)
    exact wakeFold_open _ _ _ h _ hmem
  obtain ⟨t'', h1, -, -, h4⟩ := topic.peersChanged_open ord t hopen
  rw [h1] at h
  cases h
  exact h4

theorem Chan.wake_len (c : Chan) (h : c.len ≤ 1) : c.wake.len = 1 := by
  unfold Chan.wake Chan.cap
  split
  · simp only
    omega
  · omega

theorem topic.change_wakes (t t' : topic) (op : TopicOp) (h : t.change op = some t')
    (hle : ∀ k c, t.notifications.lookup k = some c → c.len ≤ 1) :
    ∀ k c, t'.notifications.lookup k = some c → c.len = 1 := by
  cases op with
  | tryRegister ord n ip port now =>
    simp only [topic.change] at h
    by_cases hn : n ∈ t.peers
    · simp [topic.tryRegister, hn] at h
    · simp only [topic.tryRegister, hn, if_false] at h
      cases hp : topic.peersChanged ord
          { peers := t.peers.insert n ⟨n, ip, port, now⟩,
            notifications := t.notifications.insert n Chan.make,
            peerList := t.peerList } with
      | panic => simp [hp] at h
      | ret t1 =>
        simp only [hp, Option.some.injEq] at h
        subst h
        have h4 := topic.peersChanged_ret ord _ _ hp
        intro k c hk
        rw [h4 k] at hk
        obtain ⟨c0, hc0, rfl⟩ := Option.map_eq_some'.mp hk
        apply Chan.wake_len
        by_cases hkn : k = n
        · subst hkn
          simp only [AList.lookup_insert, Option.some.injEq] at hc0
          subst hc0
          simp [Chan.make]
        · simp only [AList.lookup_insert_ne hkn] at hc0
          exact hle k c0 hc0
  | unregister ord n =>
    simp only [topic.change] at h
    cases hu : t.unregister ord n with
    | panic => simp [hu] at h
    | ret t1 =>
      simp only [hu, Option.some.injEq] at h
      subst h
      unfold topic.unregister at hu
      cases hl : t.notifications.lookup n with
      | none => simp [hl] at hu
      | some ch =>
        simp only [hl] at hu
        cases hcl : ch.close with
        | panic => simp [hcl] at hu
        | ret ch' =>
          simp only [hcl] at hu
          have h4 := topic.peersChanged_ret ord _ _ hu
          intro k c hk
          rw [h4 k] at hk
          obtain ⟨c0, hc0, rfl⟩ := Option.map_eq_some'.mp hk
          apply Chan.wake_len
          by_cases hkn : k = n
          · subst hkn
            simp [AList.lookup_erase] at hc0
          · simp only [AList.lookup_erase_ne hkn] at hc0
            exact hle k c0 hc0
  | updateLastSeen n now => simp [topic.change] at h
  | getPeerList ord => simp [topic.change] at h

theorem topic.changes_append (t : topic) (l1 l2 : List TopicOp) :
    t.changes (l1 ++ l2) = (t.changes l1).bind (fun t1 => t1.changes l2) := by
  induction l1 generalizing t with
  | nil => rfl
  | cons op l1 ih =>
    simp only [List.cons_append, topic.changes]
    cases t.change op with
    | none => rfl
    | some t1 => exact ih t1

theorem topic.changes_wakes (ops : List TopicOp) (t t' : topic)
    (hle : ∀ k c, t.notifications.lookup k = some c → c.len ≤ 1) (hk : ops ≠ [])
    (h : t.changes ops = some t') :
    ∀ k c, t'.notifications.lookup k = some c → c.len = 1 := by
  induction ops generalizing t with
  | nil => exact absurd rfl hk
  | cons op ops ih =>
    unfold topic.changes at h
    cases hc : t.change op with
    | none => simp [hc] at h
    | some t1 =>
      simp only [hc] at h
      have h1 := topic.change_wakes t t1 op hc hle
      by_cases ho : ops = []
      · subst ho
        simp only [topic.changes, Option.some.injEq] at h
        subst h
        exact h1
      · exact ih t1 (fun k c hkc => le_of_eq (h1 k c hkc)) ho h

theorem topic.change_tryRegister_mem (t t' : topic) (ord : RangeOrder (Σ _ : String, Chan))
    (n : String) (ip : List Byte) (port : Nat) (now : Time)
    (h : t.change (.tryRegister ord n ip port now) = some t') : n ∈ t'.notifications := by
  simp only [topic.change] at h
  by_cases hn : n ∈ t.peers
  · simp [topic.tryRegister, hn] at h
  · simp only [topic.tryRegister, hn, if_false] at h
    cases hp : topic.peersChanged ord
        { peers := t.peers.insert n ⟨n, ip, port, now⟩,
          notifications := t.notifications.insert n Chan.make,
          peerList := t.peerList } with
    | panic => simp [hp] at h
    | ret t1 =>
      simp only [hp, Option.some.injEq] at h
      subst h
      have h4 := topic.peersChanged_ret ord _ _ hp
      rw [mem_of_lookup_map _ _ _ h4 n]
      exact (AList.mem_insert _).mpr (Or.inl rfl)

/-- C6. From a topic in which every notification channel is empty, after `k ≥ 1` membership
changes (accepted `tryRegister` calls and returning `unregister` calls) with no receive in
between, every channel then in the notification mapping holds exactly one pending wake: one
receive succeeds and the next one blocks. When the last change is a registration, the channel
it created is in the mapping and holds one wake as well. -/
theorem changes_one_wake (t : topic) (ops : List TopicOp) (t' : topic)
    (hempty : ∀ k c, t.notifications.lookup k = some c → c.len = 0)
    (hk : 1 ≤ ops.length) (h : t.changes ops = some t') :
    (∀ k c, t'.notifications.lookup k = some c →
      c.len = 1 ∧ ∃ c', c.recv = some c' ∧ c'.len = 0 ∧ c'.recv = none)
    ∧ (∀ pre ord n ip port now, ops = pre ++ [TopicOp.tryRegister ord n ip port now] →
        ∃ c, t'.notifications.lookup n = some c ∧ c.len = 1) := by
  have hne : ops ≠ [] := by
    intro h0
    rw [h0] at hk
    exact absurd hk (by decide)
  have hone := topic.changes_wakes ops t t' (fun k c hkc => le_of_eq_of_le (hempty k c hkc)
    (Nat.zero_le 1)) hne h
  refine ⟨?_, ?_⟩
  · intro k c hkc
    have h1 := hone k c hkc
    refine ⟨h1, { c with len := c.len - 1 }, ?_, ?_, ?_⟩
    · simp [Chan.recv, h1]
    · simp [h1]
    · simp [Chan.recv, h1]
  · intro pre ord n ip port now hops
    rw [hops, topic.changes_append] at h
    cases hp : t.changes pre with
    | none => simp [hp] at h
    | some t1 =>
      simp only [hp, Option.some_bind, topic.changes] at h
      cases hc : t1.change (.tryRegister ord n ip port now) with
      | none => simp [hc] at h
      | some t2 =>
        simp only [hc, Option.some.injEq] at h
        subst h
        have hmem := topic.change_tryRegister_mem t1 t2 ord n ip port now hc
        obtain ⟨c, hc'⟩ := Option.isSome_iff_exists.mp (AList.lookup_isSome.mpr hmem)
        exact ⟨c, hc', hone n c hc'⟩

/-- Witness for C6: three membership changes while "alice" does not read her channel. -/
theorem changes_one_wake_witness :
    (∀ k c, topicAliceIdle.notifications.lookup k = some c → c.len = 0)
    ∧ topicAliceIdle.changes threeChanges = some topicAliceCarol
    ∧ (∀ k c, topicAliceCarol.notifications.lookup k = some c →
        c.len = 1 ∧ ∃ c', c.recv = some c' ∧ c'.len = 0 ∧ c'.recv = none) := by
  have hempty : ∀ k c, topicAliceIdle.notifications.lookup k = some c → c.len = 0 := by
    intro k c hkc
    have hmem := AList.mem_lookup_iff.mp hkc
    simp only [topicAliceIdle, AList.singleton_entries, List.mem_singleton] at hmem
    cases hmem
    rfl
  exact ⟨hempty, rfl,
    (changes_one_wake topicAliceIdle threeChanges topicAliceCarol hempty (by decide) rfl).1⟩

/-! ### Client peer registry: facts -/

theorem pushFold_cur (L : List Peer) (st : PushLoop) (k : AddrPort) :
    k ∈ (L.foldl pushStep st).cur ↔ k ∈ st.cur ∧ k ∉ L.map Peer.IPPort := by
  induction L generalizing st with
  | nil => simp
  | cons v L ih =>
    rw [List.foldl_cons, ih]
    simp only [pushStep, AList.mem_erase, List.map_cons, List.mem_cons, not_or]
    tauto

theorem pushFold_next (L : List Peer) (st : PushLoop) (k : AddrPort) :
    k ∈ (L.foldl pushStep st).next ↔ k ∈ st.next ∨ k ∈ L.map Peer.IPPort := by
  induction L generalizing st with
  | nil => simp
  | cons v L ih =>
    rw [List.foldl_cons, ih]
    simp only [pushStep, AList.mem_insert, List.map_cons, List.mem_cons]
    tauto

theorem dropFold_mem (me : AddrPort) (l : List (Σ _ : AddrPort, Peer))
    (acc : Finset AddrPort × List LogEvent) (k : AddrPort) :
    k ∈ (l.foldl (dropStep me) acc).1 ↔ k ∈ acc.1 ∧ ¬ (k ≠ me ∧ k ∈ l.keys) := by
  induction l generalizing acc with
  | nil => simp
  | cons e l ih =>
    rw [List.foldl_cons, ih]
    by_cases he : e.1 = me
    · simp only [dropStep, he, if_true, List.keys_cons, List.mem_cons]
      constructor
      · rintro ⟨h1, h2⟩
        refine ⟨h1, ?_⟩
        rintro ⟨h3, h4 | h4⟩
        · exact h3 h4
        · exact h2 ⟨h3, h4⟩
      · rintro ⟨h1, h2⟩
        exact ⟨h1, fun ⟨h3, h4⟩ => h2 ⟨h3, Or.inr h4⟩⟩
    · simp only [dropStep, he, if_false, Finset.mem_erase, List.keys_cons, List.mem_cons]
      constructor
      · rintro ⟨⟨h0, h1⟩, h2⟩
        refine ⟨h1, ?_⟩
        rintro ⟨h3, h4 | h4⟩
        · exact h0 h4
        · exact h2 ⟨h3, h4⟩
      · rintro ⟨h1, h2⟩
        refine ⟨⟨?_, h1⟩, fun ⟨h3, h4⟩ => h2 ⟨h3, Or.inr h4⟩⟩
        intro h0
        exact h2 ⟨h0 ▸ he, Or.inl h0⟩

theorem peerRegistry.handlePeerList_peers (ordPrev ordDisc : RangeOrder (Σ _ : AddrPort, Peer))
    (p : peerRegistry) (L : List Peer) (k : AddrPort) :
    k ∈ (p.handlePeerList ordPrev ordDisc (some L)).p.peers ↔ k ∈ L.map Peer.IPPort := by
  simp only [peerRegistry.handlePeerList, pushFold_next]
  constructor
  · rintro (h | h)
    · exact absurd h (AList.not_mem_empty k)
    · exact h
  · exact Or.inr

theorem peerRegistry.handlePeerList_holepunched
    (ordPrev ordDisc : RangeOrder (Σ _ : AddrPort, Peer)) (p : peerRegistry) (L : List Peer) :
    (p.handlePeerList ordPrev ordDisc (some L)).p.holepunched
      = p.holepunched \ (p.peers.keys.toFinset.filter
          (fun k => k ≠ p.selfPeer.IPPort ∧ k ∉ L.map Peer.IPPort)) := by
  ext k
  simp only [peerRegistry.handlePeerList, dropFold_mem, Finset.mem_sdiff, Finset.mem_filter,
    List.mem_toFinset]
  have hkeys : k ∈ (ordPrev.visit (L.foldl pushStep ⟨p.peers, ∅, ∅⟩).cur.entries).keys
      ↔ k ∈ p.peers ∧ k ∉ L.map Peer.IPPort := by
    rw [← pushFold_cur L ⟨p.peers, ∅, ∅⟩ k, AList.mem_keys]
    exact ((ordPrev.perm _).map Sigma.fst).mem_iff
  rw [hkeys, ← AList.mem_keys]
  tauto

theorem peerRegistry.onPing_peers (p : peerRegistry) (addr : UDPAddr) :
    (p.onPing addr).1.peers = p.peers ∧ (p.onPing addr).1.selfPeer = p.selfPeer
    ∧ (p.onPing addr).1.holepunched = insert addr.key p.holepunched := by
  unfold peerRegistry.onPing
  by_cases h : addr.key ∈ p.holepunched
  · simp [h]
  · cases hl : p.peers.lookup addr.key <;> simp [h, hl]

theorem peerRegistry.pings_peers (pings : List UDPAddr) (p : peerRegistry) :
    (pings.foldl (fun q a => (q.onPing a).1) p).peers = p.peers
    ∧ (pings.foldl (fun q a => (q.onPing a).1) p).selfPeer = p.selfPeer := by
  induction pings generalizing p with
  | nil => exact ⟨rfl, rfl⟩
  | cons a pings ih =>
    rw [List.foldl_cons]
    obtain ⟨h1, h2⟩ := ih (p.onPing a).1
    rw [h1, h2]
    exact ⟨(p.onPing_peers a).1, (p.onPing_peers a).2.1⟩

/-- C7. After `handlePeerList` on a decoded push `L`, the addresses of the peer mapping are
exactly the addresses in `L`, and the hole-punched set is the previous one minus the non-self
addresses that were keys of the previous peer mapping and are absent from `L`. So after a
push of two records with distinct addresses `X` (not the self address) and `Y`, any pings,
and a push of the record of `Y` alone, `X` is in neither the peer mapping nor the
hole-punched set, and `Y` is hole-punched exactly if it was before the second push. -/
theorem handlePeerList_replaces (ordPrev ordDisc : RangeOrder (Σ _ : AddrPort, Peer))
    (p : peerRegistry) (L : List Peer) :
    (p.handlePeerList ordPrev ordDisc (some L)).malformed = false
    ∧ (∀ k, k ∈ (p.handlePeerList ordPrev ordDisc (some L)).p.peers ↔ k ∈ L.map Peer.IPPort)
    ∧ (p.handlePeerList ordPrev ordDisc (some L)).p.holepunched
        = p.holepunched \ (p.peers.keys.toFinset.filter
            (fun k => k ≠ p.selfPeer.IPPort ∧ k ∉ L.map Peer.IPPort))
    ∧ (∀ (x y : Peer) (pings : List UDPAddr) (o3 o4 : RangeOrder (Σ _ : AddrPort, Peer)),
        L = [x, y] → x.IPPort ≠ y.IPPort → x.IPPort ≠ p.selfPeer.IPPort →
        x.IPPort ∉ ((pings.foldl (fun q a => (q.onPing a).1)
            (p.handlePeerList ordPrev ordDisc (some L)).p).handlePeerList o3 o4 (some [y])).p.peers
        ∧ x.IPPort ∉ ((pings.foldl (fun q a => (q.onPing a).1)
            (p.handlePeerList ordPrev ordDisc (some L)).p).handlePeerList o3 o4
              (some [y])).p.holepunched
        ∧ (y.IPPort ∈ ((pings.foldl (fun q a => (q.onPing a).1)
            (p.handlePeerList ordPrev ordDisc (some L)).p).handlePeerList o3 o4
              (some [y])).p.holepunched
          ↔ y.IPPort ∈ (pings.foldl (fun q a => (q.onPing a).1)
            (p.handlePeerList ordPrev ordDisc (some L)).p).holepunched)) := by
  refine ⟨rfl, peerRegistry.handlePeerList_peers ordPrev ordDisc p L,
    peerRegistry.handlePeerList_holepunched ordPrev ordDisc p L, ?_⟩
  intro x y pings o3 o4 hL hxy hxme
  have hself : (p.handlePeerList ordPrev ordDisc (some L)).p.selfPeer = p.selfPeer := rfl
  obtain ⟨hp2, hs2⟩ := peerRegistry.pings_peers pings (p.handlePeerList ordPrev ordDisc (some L)).p
  have hx2 : x.IPPort ∈ (pings.foldl (fun q a => (q.onPing a).1)
      (p.handlePeerList ordPrev ordDisc (some L)).p).peers := by
    rw [hp2, peerRegistry.handlePeerList_peers, hL]
    simp
  refine ⟨?_, ?_, ?_⟩
  · rw [peerRegistry.handlePeerList_peers]
    simpa using hxy
  · rw [peerRegistry.handlePeerList_holepunched, Finset.mem_sdiff, Finset.mem_filter,
      List.mem_toFinset, ← AList.mem_keys, hs2, hself]
    intro h
    apply h.2
    refine ⟨hx2, hxme, ?_⟩
    simpa using hxy
  · rw [peerRegistry.handlePeerList_holepunched, Finset.mem_sdiff, Finset.mem_filter]
    constructor
    · exact fun h => h.1
    · intro h
      refine ⟨h, ?_⟩
      rintro ⟨-, -, h3⟩
      exact h3 (by simp)

/-- Witness for C7: "alice" gets the push {bob, carol}, receives a ping from bob, then gets
the push {carol}. -/
theorem handlePeerList_replaces_witness :
    peerBob.IPPort ≠ peerCarol.IPPort ∧ peerBob.IPPort ≠ registryAlice.selfPeer.IPPort
    ∧ peerBob.IPPort ∈ ([udpBob].foldl (fun q a => (q.onPing a).1)
        (registryAlice.handlePeerList (RangeOrder.asStored _) (RangeOrder.asStored _)
          (some [peerBob, peerCarol])).p).holepunched
    ∧ peerBob.IPPort ∉ (([udpBob].foldl (fun q a => (q.onPing a).1)
        (registryAlice.handlePeerList (RangeOrder.asStored _) (RangeOrder.asStored _)
          (some [peerBob, peerCarol])).p).handlePeerList (RangeOrder.asStored _)
            (RangeOrder.asStored _) (some [peerCarol])).p.peers
    ∧ peerBob.IPPort ∉ (([udpBob].foldl (fun q a => (q.onPing a).1)
        (registryAlice.handlePeerList (RangeOrder.asStored _) (RangeOrder.asStored _)
          (some [peerBob, peerCarol])).p).handlePeerList (RangeOrder.asStored _)
            (RangeOrder.asStored _) (some [peerCarol])).p.holepunched :=
  ⟨by decide, by decide, by decide,
   ((handlePeerList_replaces (RangeOrder.asStored _) (RangeOrder.asStored _) registryAlice
      [peerBob, peerCarol]).2.2.2 peerBob peerCarol [udpBob] (RangeOrder.asStored _)
      (RangeOrder.asStored _) rfl (by decide) (by decide)).1,
   ((handlePeerList_replaces (RangeOrder.asStored _) (RangeOrder.asStored _) registryAlice
      [peerBob, peerCarol]).2.2.2 peerBob peerCarol [udpBob] (RangeOrder.asStored _)
      (RangeOrder.asStored _) rfl (by decide) (by decide)).2.1⟩

/-- C8, counterexample. In the registry of "alice" before any push, the address of "bob" is
not hole-punched; `onPing` marks it and logs nothing, because the address is not a key of the
peer mapping. -/
theorem onPing_unknown_address_logs_nothing :
    udpBob.key ∉ registryAlice.holepunched
    ∧ udpBob.key ∈ (registryAlice.onPing udpBob).1.holepunched
    ∧ (registryAlice.onPing udpBob).2 = [] := by
  decide

/-- C8, amended. For an address `X` not yet in the hole-punched set, `onPing(X)` adds `X` to
the set and changes nothing else; it logs the "Established connection" line exactly once when
`X` is a key of the peer mapping and logs nothing when it is not; a second `onPing(X)` right
after logs nothing and leaves the registry unchanged. -/
theorem onPing_first_then_silent (p : peerRegistry) (addr : UDPAddr)
    (h : addr.key ∉ p.holepunched) :
    (p.onPing addr).1 = { p with holepunched := insert addr.key p.holepunched }
    ∧ (p.onPing addr).2 = (match p.peers.lookup addr.key with
        | some v => [LogEvent.established addr.key v.Name]
        | none => [])
    ∧ (p.onPing addr).1.onPing addr = ((p.onPing addr).1, []) := by
  have h1 : (p.onPing addr).1 = { p with holepunched := insert addr.key p.holepunched } := by
    unfold peerRegistry.onPing
    cases hl : p.peers.lookup addr.key <;> simp [h, hl]
  refine ⟨h1, ?_, ?_⟩
  · unfold peerRegistry.onPing
    cases hl : p.peers.lookup addr.key <;> simp [h, hl]
  · rw [h1]
    simp [peerRegistry.onPing]

/-- Witness for C8: the first ping from "bob" after the push that lists him. -/
theorem onPing_first_then_silent_witness :
    udpBob.key ∉ registryAliceKnowsBob.holepunched
    ∧ (registryAliceKnowsBob.onPing udpBob).2 = [LogEvent.established udpBob.key "bob"]
    ∧ (registryAliceKnowsBob.onPing udpBob).1.onPing udpBob
        = ((registryAliceKnowsBob.onPing udpBob).1, []) :=
  ⟨by decide,
   (onPing_first_then_silent registryAliceKnowsBob udpBob (by decide)).2.1.trans (by decide),
   (onPing_first_then_silent registryAliceKnowsBob udpBob (by decide)).2.2⟩

theorem peerRegistry.run_holepunched (ops : List RegOp) (p : peerRegistry) :
    (p.run ops).holepunched ⊆ p.holepunched ∪ pingedKeys ops := by
  induction ops generalizing p with
  | nil => simp [peerRegistry.run, pingedKeys]
  | cons op ops ih =>
    have hrun : p.run (op :: ops) = (p.step op).run ops := rfl
    rw [hrun]
    refine (ih (p.step op)).trans ?_
    cases op with
    | push o1 o2 L =>
      simp only [peerRegistry.step, peerRegistry.handlePeerList_holepunched, pingedKeys]
      exact Finset.union_subset_union_left Finset.sdiff_subset
    | ping addr =>
      simp only [peerRegistry.step, (p.onPing_peers addr).2.2, pingedKeys]
      intro k hk
      simp only [Finset.mem_union, Finset.mem_insert] at hk ⊢
      tauto

/-- C9, counterexample. From the empty registry of "alice", one ping from the address of
"bob" puts that address in the hole-punched set, and the address is a key of the peer
mapping in no state up to then. -/
theorem holepunched_address_never_a_peer :
    udpBob.key ∈ (registryAlice.run [.ping udpBob]).holepunched
    ∧ ∀ s ∈ registryAlice.trace [.ping udpBob], udpBob.key ∉ s.peers := by
  refine ⟨by decide, ?_⟩
  intro s hs
  simp only [peerRegistry.trace, List.mem_cons, List.mem_singleton, List.not_mem_nil,
    or_false] at hs
  rcases hs with rfl | rfl
  · decide
  · decide

/-- C9, amended. In every state reachable from the empty registry by `handlePeerList` and
`onPing` calls, the hole-punched set is a subset of the addresses `onPing` has been called
with up to that state. -/
theorem holepunched_subset_pinged (topic name : String) (selfAddr : UDPAddr)
    (ops : List RegOp) :
    ((peerRegistry.new topic name selfAddr).run ops).holepunched ⊆ pingedKeys ops := by
  have h := peerRegistry.run_holepunched ops (peerRegistry.new topic name selfAddr)
  simpa [peerRegistry.new] using h

/-! ### Rendezvous handshake: facts -/

theorem websocketHandler_rejects_early (parseAddr : String → Option (List Byte))
    (ord : RangeOrder (Σ _ : String, Chan)) (now : Time) (s : state) (q : String → String)
    (h : q "topic" = "" ∨ parseAddr (q "ip") = none ∨ parseUint16 (q "port") = none
      ∨ parseUint16 (q "port") = some 0) :
    ∃ r, websocketHandler parseAddr ord now s q = .ret r ∧ r.registerCall = none
      ∧ r.accepted = false ∧ r.s = s ∧ ∃ msg, (400, msg) ∈ r.errors := by
  unfold websocketHandler
  by_cases ht : q "topic" = ""
  · simp only [ht, if_true]
    exact ⟨_, rfl, rfl, rfl, rfl, "Missing topic", by simp⟩
  · simp only [ht, if_false]
    cases hip : parseAddr (q "ip") with
    | none => exact ⟨_, rfl, rfl, rfl, rfl, "Missing or invalid ip", by simp⟩
    | some ip =>
      cases hport : parseUint16 (q "port") with
      | none => exact ⟨_, rfl, rfl, rfl, rfl, "Missing or invalid port", by simp⟩
      | some port =>
        by_cases hp0 : port = 0
        · simp only [hp0, if_true]
          exact ⟨_, rfl, rfl, rfl, rfl, "Missing or invalid port", by simp⟩
        · exfalso
          rcases h with h | h | h | h
          · exact ht h
          · rw [hip] at h
            cases h
          · rw [hport] at h
            cases h
          · rw [hport] at h
            exact hp0 (Option.some.inj h)

/-- C10, the code at the failing input. For the handshake `?topic=t&ip=203.0.113.5&port=40000`
(no `name`) on a server without topics, the handler writes the 400 "Missing name" answer and
goes on: it calls `tryRegister` with the empty name, the registration is accepted, and topic
"t" then has a peer registered under the empty name. -/
theorem websocketHandler_missing_name_registers :
    ∃ r, websocketHandler sampleParseAddr (RangeOrder.asStored _) 1 ⟨∅⟩ queryNoName = .ret r
      ∧ r.errors = [(400, "Missing name")]
      ∧ r.registerCall = some ("t", "", ipAlice, 40000)
      ∧ r.accepted = true
      ∧ ∃ t, r.s.topics.lookup "t" = some t ∧ "" ∈ t.peers :=
  ⟨_, rfl, rfl, rfl, rfl, _, rfl, by decide⟩

/-! ### Client peer registry: iteration and announcements -/

theorem callsFold (me : AddrPort) (l : List (Σ _ : AddrPort, Peer)) (acc : List UDPAddr) :
    l.foldl (fun calls e => if e.1 = me then calls else calls ++ [⟨e.2.IP, (e.2.Port : Int)⟩])
        acc
      = acc ++ (l.filter (fun e => decide (e.1 ≠ me))).map callOf := by
  induction l generalizing acc with
  | nil => simp
  | cons e l ih =>
    rw [List.foldl_cons, ih]
    by_cases he : e.1 = me
    · simp [he]
    · simp [he, callOf]

theorem peerRegistry.forEachPeerAddress_perm (ord : RangeOrder (Σ _ : AddrPort, Peer))
    (p : peerRegistry) :
    (p.forEachPeerAddress ord).Perm
      ((p.peers.entries.filter (fun e => decide (e.1 ≠ p.selfPeer.IPPort))).map callOf) := by
  unfold peerRegistry.forEachPeerAddress
  rw [callsFold]
  simp only [List.nil_append]
  exact ((ord.perm _).filter _).map _

theorem pushFold_keyed (L : List Peer) (st : PushLoop) (h : Keyed st.next) :
    Keyed (L.foldl pushStep st).next := by
  induction L generalizing st with
  | nil => exact h
  | cons v L ih =>
    rw [List.foldl_cons]
    apply ih
    intro k w hk
    simp only [pushStep] at hk
    by_cases hkv : k = v.IPPort
    · subst hkv
      rw [AList.lookup_insert] at hk
      cases hk
      rfl
    · rw [AList.lookup_insert_ne hkv] at hk
      exact h k w hk

theorem peerRegistry.step_keyed (p : peerRegistry) (op : RegOp) (h : Keyed p.peers) :
    Keyed (p.step op).peers ∧ (p.step op).selfPeer = p.selfPeer := by
  cases op with
  | push o1 o2 L =>
    refine ⟨?_, rfl⟩
    simp only [peerRegistry.step, peerRegistry.handlePeerList]
    exact pushFold_keyed L _ (fun k v hk => by cases hk)
  | ping addr =>
    simp only [peerRegistry.step]
    rw [(p.onPing_peers addr).1, (p.onPing_peers addr).2.1]
    exact ⟨h, rfl⟩

theorem peerRegistry.run_keyed (ops : List RegOp) (p : peerRegistry) (h : Keyed p.peers) :
    Keyed (p.run ops).peers ∧ (p.run ops).selfPeer = p.selfPeer := by
  induction ops generalizing p with
  | nil => exact ⟨h, rfl⟩
  | cons op ops ih =>
    have hrun : p.run (op :: ops) = (p.step op).run ops := rfl
    rw [hrun]
    obtain ⟨h1, h2⟩ := p.step_keyed op h
    obtain ⟨h3, h4⟩ := ih (p.step op) h1
    exact ⟨h3, h4.trans h2⟩

theorem callOf_nodup (m : AList (fun _ : AddrPort => Peer)) (hk : Keyed m) (me : AddrPort) :
    ((m.entries.filter (fun e => decide (e.1 ≠ me))).map callOf).Nodup := by
  apply List.Nodup.map_on
  · intro e1 h1 e2 h2 hc
    have hm1 : e1 ∈ m.entries := List.mem_of_mem_filter h1
    have hm2 : e2 ∈ m.entries := List.mem_of_mem_filter h2
    obtain ⟨k1, v1⟩ := e1
    obtain ⟨k2, v2⟩ := e2
    have hl1 : m.lookup k1 = some v1 := AList.mem_lookup_iff.mpr hm1
    have hl2 : m.lookup k2 = some v2 := AList.mem_lookup_iff.mpr hm2
    simp only [callOf, UDPAddr.mk.injEq, Nat.cast_inj] at hc
    have hkk : k1 = k2 := by
      rw [← hk k1 v1 hl1, ← hk k2 v2 hl2]
      simp [Peer.IPPort, hc.1, hc.2]
    exact m.nodupKeys.eq_of_fst_eq hm1 hm2 hkk
  · exact (m.nodupKeys.nodup).filter _

theorem peerRegistry.run_snoc (p : peerRegistry) (pre : List RegOp) (op : RegOp) :
    p.run (pre ++ [op]) = (p.run pre).step op := by
  simp [peerRegistry.run, List.foldl_append]

/-- C11. In every registry state reached from a new registry by `handlePeerList` and `onPing`
calls, `forEachPeerAddress(f)` calls `f` exactly once for each entry of the peer mapping
whose address is not the self address, with the ip and port of the record stored there (a
record whose address is that key), and makes no other call; the calls are pairwise distinct
and do not depend on the hole-punched set. After a push that lists the self record and one
other record, the only call is the one with that other record's ip and port. -/
theorem forEachPeerAddress_visits (topic name : String) (selfAddr : UDPAddr)
    (ops : List RegOp) (ord : RangeOrder (Σ _ : AddrPort, Peer)) :
    (((peerRegistry.new topic name selfAddr).run ops).forEachPeerAddress ord).Perm
      ((((peerRegistry.new topic name selfAddr).run ops).peers.entries.filter
        (fun e => decide (e.1 ≠ (peerRegistry.new topic name selfAddr).selfPeer.IPPort))).map
          callOf)
    ∧ (∀ k v, ((peerRegistry.new topic name selfAddr).run ops).peers.lookup k = some v →
        v.IPPort = k)
    ∧ (((peerRegistry.new topic name selfAddr).run ops).forEachPeerAddress ord).Nodup
    ∧ (∀ hp : Finset AddrPort,
        peerRegistry.forEachPeerAddress ord
            { (peerRegistry.new topic name selfAddr).run ops with holepunched := hp }
          = ((peerRegistry.new topic name selfAddr).run ops).forEachPeerAddress ord)
    ∧ (∀ (pre : List RegOp) (o1 o2 : RangeOrder (Σ _ : AddrPort, Peer)) (a b : Peer),
        ops = pre ++ [.push o1 o2 [a, b]] →
        a.IPPort = (peerRegistry.new topic name selfAddr).selfPeer.IPPort →
        b.IPPort ≠ (peerRegistry.new topic name selfAddr).selfPeer.IPPort →
        ((peerRegistry.new topic name selfAddr).run ops).forEachPeerAddress ord
          = [⟨b.IP, (b.Port : Int)⟩]) := by
  have h0 : Keyed (peerRegistry.new topic name selfAddr).peers := fun k v hk => by cases hk
  obtain ⟨hkey, hself⟩ := peerRegistry.run_keyed ops _ h0
  have hperm := peerRegistry.forEachPeerAddress_perm ord
    ((peerRegistry.new topic name selfAddr).run ops)
  rw [hself] at hperm
  refine ⟨hperm, hkey, ?_, fun _ => rfl, ?_⟩
  · exact hperm.nodup_iff.mpr (callOf_nodup _ hkey _)
  · intro pre o1 o2 a b hops ha hb
    have hab : b.IPPort ≠ a.IPPort := by rw [ha]; exact hb
    have hent : ((peerRegistry.new topic name selfAddr).run ops).peers.entries
        = [⟨b.IPPort, b⟩, ⟨a.IPPort, a⟩] := by
      rw [hops, peerRegistry.run_snoc]
      simp [peerRegistry.step, peerRegistry.handlePeerList, pushStep, AList.insert_entries,
        List.kerase_cons_ne, hab, Ne.symm hab]
    rw [hent] at hperm
    have hfil : (([⟨b.IPPort, b⟩, ⟨a.IPPort, a⟩] : List (Σ _ : AddrPort, Peer)).filter
        (fun e => decide (e.1 ≠ (peerRegistry.new topic name selfAddr).selfPeer.IPPort))).map
          callOf = [⟨b.IP, (b.Port : Int)⟩] := by
      simp [List.filter_cons, hb, ha, callOf]
    rw [hfil] at hperm
    exact List.perm_singleton.mp hperm

/-- Witness for C11: the registry of "alice" after the push that lists alice and bob calls
`f` with the address of bob only. -/
theorem forEachPeerAddress_visits_witness :
    peerAlice.IPPort = registryAlice.selfPeer.IPPort
    ∧ peerBob.IPPort ≠ registryAlice.selfPeer.IPPort
    ∧ (registryAlice.run [pushAliceBob]).forEachPeerAddress (RangeOrder.reversed _)
        = [⟨ipBob, 50000⟩] :=
  ⟨by decide, by decide,
   (forEachPeerAddress_visits "t" "alice" ⟨ipAlice, 40000⟩ [pushAliceBob]
      (RangeOrder.reversed _)).2.2.2.2 [] (RangeOrder.asStored _) (RangeOrder.asStored _)
      peerAlice peerBob rfl (by decide) (by decide)⟩

theorem pushFold_discovered (L : List Peer) (st : PushLoop) (k : AddrPort) :
    k ∈ (L.foldl pushStep st).discovered
      ↔ k ∈ st.discovered
        ∨ (k ∈ L.map Peer.IPPort ∧ (k ∉ st.cur ∨ 2 ≤ (L.map Peer.IPPort).count k)) := by
  induction L generalizing st with
  | nil => simp
  | cons v L ih =>
    rw [List.foldl_cons, ih]
    have hd : k ∈ (pushStep st v).discovered
        ↔ k ∈ st.discovered ∨ (k = v.IPPort ∧ v.IPPort ∉ st.cur) := by
      simp only [pushStep]
      by_cases hv : v.IPPort ∈ st.cur
      · simp [hv]
      · simp only [hv, if_false, AList.mem_insert, not_false_eq_true, and_true]
        tauto
    have hc : k ∈ (pushStep st v).cur ↔ k ≠ v.IPPort ∧ k ∈ st.cur := by
      simp only [pushStep, AList.mem_erase]
    rw [hd, hc, List.map_cons, List.mem_cons, List.count_cons]
    by_cases hk : k = v.IPPort
    · subst hk
      have hcount : 2 ≤ List.count v.IPPort (L.map Peer.IPPort) + 1
          ↔ v.IPPort ∈ L.map Peer.IPPort := by
        rw [← List.count_pos_iff]
        omega
      simp only [beq_self_eq_true, if_true, hcount]
      tauto
    · have hne : (v.IPPort == k) = false := by
        simp [beq_eq_false_iff_ne, Ne.symm hk]
      simp only [hne, Bool.false_eq_true, if_false, Nat.add_zero]
      tauto

theorem dropFold_log (me : AddrPort) (l : List (Σ _ : AddrPort, Peer))
    (acc : Finset AddrPort × List LogEvent) (k : AddrPort) (n : String) :
    LogEvent.newPeer k n ∈ (l.foldl (dropStep me) acc).2 ↔ LogEvent.newPeer k n ∈ acc.2 := by
  induction l generalizing acc with
  | nil => rfl
  | cons e l ih =>
    rw [List.foldl_cons, ih]
    by_cases he : e.1 = me
    · simp [dropStep, he]
    · simp [dropStep, he]

theorem announceFold_log (me : AddrPort) (l : List (Σ _ : AddrPort, Peer))
    (log : List LogEvent) (k : AddrPort) (n : String) :
    LogEvent.newPeer k n ∈ l.foldl (announceStep me) log
      ↔ LogEvent.newPeer k n ∈ log ∨ (k ≠ me ∧ ∃ v, (⟨k, v⟩ : Σ _ : AddrPort, Peer) ∈ l
          ∧ v.Name = n) := by
  induction l generalizing log with
  | nil => simp
  | cons e l ih =>
    rw [List.foldl_cons, ih]
    obtain ⟨k0, v0⟩ := e
    have hstep : LogEvent.newPeer k n ∈ announceStep me log ⟨k0, v0⟩
        ↔ LogEvent.newPeer k n ∈ log ∨ (k0 ≠ me ∧ k = k0 ∧ n = v0.Name) := by
      by_cases he : k0 = me
      · simp [announceStep, he]
      · simp [announceStep, he]
    have hhead : (∃ v, (⟨k, v⟩ : Σ _ : AddrPort, Peer) ∈ (⟨k0, v0⟩ :: l) ∧ v.Name = n)
        ↔ (k = k0 ∧ v0.Name = n) ∨ ∃ v, (⟨k, v⟩ : Σ _ : AddrPort, Peer) ∈ l ∧ v.Name = n := by
      constructor
      · rintro ⟨v, hv, hn⟩
        rcases List.mem_cons.mp hv with h | h
        · cases h
          exact Or.inl ⟨rfl, hn⟩
        · exact Or.inr ⟨v, h, hn⟩
      · rintro (⟨rfl, hn⟩ | ⟨v, hv, hn⟩)
        · exact ⟨v0, List.mem_cons_self _ _, hn⟩
        · exact ⟨v, List.mem_cons_of_mem _ hv, hn⟩
    rw [hstep, hhead]
    constructor
    · rintro ((h | ⟨h1, rfl, rfl⟩) | ⟨h1, h2⟩)
      · exact Or.inl h
      · exact Or.inr ⟨h1, Or.inl ⟨rfl, rfl⟩⟩
      · exact Or.inr ⟨h1, Or.inr h2⟩
    · rintro (h | ⟨h1, ⟨rfl, h3⟩ | h2⟩)
      · exact Or.inl (Or.inl h)
      · exact Or.inl (Or.inr ⟨h1, rfl, h3.symm⟩)
      · exact Or.inr ⟨h1, h2⟩

/-- What `handlePeerList` announces, for every registry and every decoded push: "New peer"
is logged for the address `k` exactly when `k` is not the self address, occurs in the push,
and either was not a key of the peer mapping before or occurs in the push more than once. -/
theorem peerRegistry.handlePeerList_newPeer (ordPrev ordDisc : RangeOrder (Σ _ : AddrPort, Peer))
    (p : peerRegistry) (L : List Peer) (k : AddrPort) :
    (∃ n, LogEvent.newPeer k n ∈ (p.handlePeerList ordPrev ordDisc (some L)).log)
      ↔ k ≠ p.selfPeer.IPPort ∧ k ∈ L.map Peer.IPPort
          ∧ (k ∉ p.peers ∨ 2 ≤ (L.map Peer.IPPort).count k) := by
  simp only [peerRegistry.handlePeerList, announceFold_log, dropFold_log, List.not_mem_nil,
    false_or]
  have hdisc := pushFold_discovered L ⟨p.peers, ∅, ∅⟩ k
  have hmem : (∃ n, ∃ v, (⟨k, v⟩ : Σ _ : AddrPort, Peer)
        ∈ ordDisc.visit (L.foldl pushStep ⟨p.peers, ∅, ∅⟩).discovered.entries ∧ v.Name = n)
      ↔ k ∈ (L.foldl pushStep ⟨p.peers, ∅, ∅⟩).discovered := by
    constructor
    · rintro ⟨n, v, hv, -⟩
      have hv' := (ordDisc.perm _).subset hv
      exact AList.lookup_isSome.mp (by rw [AList.mem_lookup_iff.mpr hv']; rfl)
    · intro hk
      obtain ⟨v, hv⟩ := Option.isSome_iff_exists.mp (AList.lookup_isSome.mpr hk)
      exact ⟨v.Name, v, (ordDisc.perm _).symm.subset (AList.mem_lookup_iff.mp hv), rfl⟩
  constructor
  · rintro ⟨n, hme, v, hv, hn⟩
    have hk := hmem.mp ⟨n, v, hv, hn⟩
    rw [hdisc] at hk
    rcases hk with hk | hk
    · exact absurd hk (AList.not_mem_empty k)
    · exact ⟨hme, hk⟩
  · rintro ⟨hme, hk⟩
    obtain ⟨n, v, hv, hn⟩ := hmem.mpr (hdisc.mpr (Or.inr hk))
    exact ⟨n, hme, v, hv, hn⟩

/-- When the addresses of the push are pairwise distinct, "New peer" is logged exactly for the
non-self addresses of the push that were not keys of the peer mapping before. -/
theorem peerRegistry.handlePeerList_newPeer_distinct
    (ordPrev ordDisc : RangeOrder (Σ _ : AddrPort, Peer)) (p : peerRegistry) (L : List Peer)
    (hL : (L.map Peer.IPPort).Nodup) (k : AddrPort) :
    (∃ n, LogEvent.newPeer k n ∈ (p.handlePeerList ordPrev ordDisc (some L)).log)
      ↔ k ≠ p.selfPeer.IPPort ∧ k ∈ L.map Peer.IPPort ∧ k ∉ p.peers := by
  rw [peerRegistry.handlePeerList_newPeer]
  have hc : (L.map Peer.IPPort).count k ≤ 1 := List.nodup_iff_count_le_one.mp hL k
  constructor
  · rintro ⟨h1, h2, h3 | h3⟩
    · exact ⟨h1, h2, h3⟩
    · omega
  · rintro ⟨h1, h2, h3⟩
    exact ⟨h1, h2, Or.inl h3⟩

/-- C12, the code at the failing input. The registry of "alice" knows "bob" at
198.51.100.7:50000 and "carol"; a push lists "bob", a second record "bobby" with the address
of "bob", and "carol". The address of "bob" was a key of the peer mapping before the push and
is not the self address, yet `handlePeerList` logs "New peer" for it. -/
theorem handlePeerList_announces_known_address :
    peerBob.IPPort ∈ registryAliceKnowsBob.peers
    ∧ peerBob.IPPort ≠ registryAliceKnowsBob.selfPeer.IPPort
    ∧ peerBobTwin.IPPort = peerBob.IPPort
    ∧ (registryAliceKnowsBob.handlePeerList (RangeOrder.asStored _) (RangeOrder.asStored _)
        (some [peerBob, peerBobTwin, peerCarol])).log
      = [LogEvent.newPeer peerBob.IPPort "bobby"] := by
  decide

end NatTraversal
